import Mathlib

/-!
Verification of the silence-trimming audio pipeline in
src/audioProcessor.js.

Float samples are modelled as rationals, buffers as lists, and the
imperative loops as structurally recursive functions over those lists.
Machine conversions (the 16-bit PCM store, the little-endian header
fields) are modelled with explicit truncation and modulus arithmetic.
-/

namespace AudioProc

/-! ## PCM sample conversion (floatTo16BitPCM) -/

/-- Truncation toward zero: the integer conversion (ToIntegerOrInfinity)
that DataView.setInt16 applies to a fractional value before storing it. -/
def truncQ (q : ℚ) : ℤ := if q < 0 then ⌈q⌉ else ⌊q⌋

/-- Wrap an integer into the signed 16-bit range, as the 16-bit store
(ToInt16) does. -/
def toInt16 (z : ℤ) : ℤ := (z + 32768) % 65536 - 32768

/-- Clamp a sample to [-1, 1]: Math.max(-1, Math.min(1, x)). -/
def clamp1 (x : ℚ) : ℚ := max (-1) (min 1 x)

/-- Per-sample conversion of floatTo16BitPCM: the clamped value s is
scaled by 0x8000 when s < 0 and by 0x7fff otherwise, and the result is
stored with setInt16 (truncation toward zero, then 16-bit wrap). -/
def floatTo16 (x : ℚ) : ℤ :=
  toInt16 (truncQ (if clamp1 x < 0 then clamp1 x * 32768 else clamp1 x * 32767))

/-- The whole-buffer version of floatTo16BitPCM, as stored values. -/
def floatTo16BitPCM (input : List ℚ) : List ℤ := input.map floatTo16

/-! ## Byte-level container framing (audioBufferToWavBlob) -/

/-- Little-endian bytes of a 16-bit unsigned field (DataView.setUint16). -/
def u16le (v : ℕ) : List ℕ := [v % 256, v / 256 % 256]

/-- Little-endian bytes of a 32-bit unsigned field (DataView.setUint32). -/
def u32le (v : ℕ) : List ℕ :=
  [v % 256, v / 256 % 256, v / 2 ^ 16 % 256, v / 2 ^ 24 % 256]

/-- Little-endian two's-complement bytes of a stored 16-bit sample. -/
def i16le (z : ℤ) : List ℕ :=
  [(z % 65536).toNat % 256, (z % 65536).toNat / 256]

/-- The data chunk payload: every sample converted and stored as two
little-endian bytes. -/
def floatTo16BitPCMBytes (input : List ℚ) : List ℕ :=
  (input.map fun x => i16le (floatTo16 x)).flatten

/-- audioBufferToWavBlob: the 44-byte RIFF/WAVE header followed by the
16-bit PCM data, written field by field at consecutive offsets.
String fields are the ASCII codes written by writeString
("RIFF", "WAVE", "fmt ", "data"). -/
def audioBufferToWavBlob (sampleRate : ℕ) (channelData : List ℚ) : List ℕ :=
  let dataSize := channelData.length * 2
  [82, 73, 70, 70] ++                 -- offset 0: "RIFF"
  u32le (36 + dataSize) ++            -- offset 4: chunk size
  [87, 65, 86, 69] ++                 -- offset 8: "WAVE"
  [102, 109, 116, 32] ++              -- offset 12: "fmt "
  u32le 16 ++                         -- offset 16: subchunk1 size
  u16le 1 ++                          -- offset 20: audio format (PCM)
  u16le 1 ++                          -- offset 22: channel count
  u32le sampleRate ++                 -- offset 24: sample rate
  u32le (sampleRate * 2) ++           -- offset 28: byte rate
  u16le 2 ++                          -- offset 32: block align
  u16le 16 ++                         -- offset 34: bits per sample
  [100, 97, 116, 97] ++               -- offset 36: "data"
  u32le dataSize ++                   -- offset 40: subchunk2 size
  floatTo16BitPCMBytes channelData    -- offset 44: PCM samples

/-! ## Unit conversion and downmix -/

/-- msToSamples: Math.max(0, Math.round((ms / 1000) * sampleRate)).
Int.toNat is exactly the composition of Math.max(0, _) with the
integer result of Math.round (round half toward positive infinity). -/
def msToSamples (ms : ℚ) (sampleRate : ℕ) : ℕ :=
  (round (ms / 1000 * (sampleRate : ℚ))).toNat

/-- The input AudioBuffer: per-channel sample sequences and a rate. -/
structure JsAudioBuffer where
  channels : List (List ℚ)
  sampleRate : ℕ

/-- audioBuffer.length: the per-channel frame count (all channels of a
Web Audio buffer share it; we read it off the first channel). -/
def bufferLength (b : JsAudioBuffer) : ℕ := (b.channels.headD []).length

/-- downmixToMono: a single channel is copied verbatim; otherwise every
channel is accumulated per index and the sum divided by the channel
count.  Reading past a short channel yields the zero fill of the
freshly allocated Float32Array, modelled by getD with default 0. -/
def downmixToMono (b : JsAudioBuffer) : List ℚ :=
  match b.channels with
  | [c] => c
  | cs =>
      (List.range (bufferLength b)).map fun i =>
        (cs.map fun c => c.getD i 0).sum / (cs.length : ℚ)

/-! ## Silence segmentation (detectSpeechSegments, lines 96-135) -/

/-- The mutable state of the detection loop. -/
structure ScanState where
  segments : List (ℕ × ℕ)
  inSilence : Bool
  silenceRun : ℕ
  speechStart : ℕ
deriving DecidableEq

/-- One iteration of the detection loop at sample index i.  Natural
subtraction i - run is exactly the source's Math.max(0, i - silenceRun). -/
def scanStep (thr : ℚ) (minSil : ℕ) (i : ℕ) (st : ScanState) (a : ℚ) : ScanState :=
  if |a| < thr then
    let run := st.silenceRun + 1
    if st.inSilence = false ∧ minSil ≤ run then
      let speechEnd := i - run
      { segments :=
          if st.speechStart < speechEnd then st.segments ++ [(st.speechStart, speechEnd)]
          else st.segments
        inSilence := true
        silenceRun := run
        speechStart := st.speechStart }
    else
      { st with silenceRun := run }
  else
    { segments := st.segments
      inSilence := false
      silenceRun := 0
      speechStart := if st.inSilence then i else st.speechStart }

/-- The detection loop, scanning samples from index i upward. -/
def scanGo (thr : ℚ) (minSil : ℕ) (i : ℕ) (st : ScanState) : List ℚ → ScanState
  | [] => st
  | a :: rest => scanGo thr minSil (i + 1) (scanStep thr minSil i st a) rest

/-- The final loop state over a whole buffer, from the initial state. -/
def codeScan (data : List ℚ) (thr : ℚ) (minSil : ℕ) : ScanState :=
  scanGo thr minSil 0 ⟨[], false, 0, 0⟩ data

/-- The tail rule (lines 127-130): close a final segment when the scan
did not end inside a qualifying silence and speech is still open. -/
def tailSegments (n : ℕ) (st : ScanState) : List (ℕ × ℕ) :=
  if st.inSilence = false ∧ st.speechStart < n then
    st.segments ++ [(st.speechStart, n)]
  else st.segments

/-- The raw scan output: loop, then tail rule. -/
def scanWithTail (data : List ℚ) (thr : ℚ) (minSil : ℕ) : List (ℕ × ℕ) :=
  tailSegments data.length (codeScan data thr minSil)

/-- The fallback rule (lines 132-135): an empty raw list becomes the
single whole-buffer segment. -/
def rawSegments (data : List ℚ) (thr : ℚ) (minSil : ℕ) : List (ℕ × ℕ) :=
  let l := scanWithTail data thr minSil
  if l = [] then [(0, data.length)] else l

/-- MERGE_GAP_SAMPLES = Math.floor(sampleRate * 0.03). -/
def mergeGapSamples (sampleRate : ℕ) : ℤ := ⌊(sampleRate : ℚ) * (3 / 100)⌋

/-- One iteration of the merge loop (lines 139-151): an empty accepted
list takes the segment; otherwise a gap at most the merge gap extends
the last accepted segment's end, else the segment is appended. -/
def mergeStep (gap : ℤ) (acc : List (ℕ × ℕ)) (seg : ℕ × ℕ) : List (ℕ × ℕ) :=
  match acc.getLast? with
  | none => [seg]
  | some prev =>
      if (seg.1 : ℤ) - (prev.2 : ℤ) ≤ gap then
        acc.dropLast ++ [(prev.1, seg.2)]
      else acc ++ [seg]

/-- The merge pass over a whole segment list. -/
def mergeSegments (gap : ℤ) (segs : List (ℕ × ℕ)) : List (ℕ × ℕ) :=
  segs.foldl (mergeStep gap) []

/-- detectSpeechSegments: raw scan with tail and fallback rules, then
the merge pass with the fixed 30 ms gap. -/
def detectSpeechSegments (data : List ℚ) (sampleRate : ℕ) (thr : ℚ)
    (minSil : ℕ) : List (ℕ × ℕ) :=
  mergeSegments (mergeGapSamples sampleRate) (rawSegments data thr minSil)

/-! ## Crossfade stitching (buildOutputBufferFromSegments) -/

/-- source.subarray(s, e): drop then take, with the same clamping. -/
def segSlice (src : List ℚ) (seg : ℕ × ℕ) : List ℚ :=
  (src.drop seg.1).take (seg.2 - seg.1)

/-- The crossfade loop over ov samples: position i blends the already
written tail sample a with the segment head sample b using
fadeIn = i / ov and fadeOut = 1 - fadeIn. -/
def crossfadeChunk (tl hd : List ℚ) (ov : ℕ) : List ℚ :=
  (List.range ov).map fun i =>
    tl.getD i 0 * (1 - (i : ℚ) / (ov : ℚ)) + hd.getD i 0 * ((i : ℚ) / (ov : ℚ))

/-- The stitch loop for all segments after the first: acc is the filled
prefix of the output (the write cursor is its length), prevLen the
previous segment's length.  Each step retreats by ov, crossfades ov
samples, and appends the rest of the segment. -/
def stitchGo (src : List ℚ) (ovS : ℕ) (acc : List ℚ) (prevLen : ℕ) :
    List (ℕ × ℕ) → List ℚ
  | [] => acc
  | seg :: rest =>
      let segLen := seg.2 - seg.1
      let sv := segSlice src seg
      let ov := min ovS (min prevLen segLen)
      let pos := acc.length - ov
      stitchGo src ovS
        (acc.take pos ++ crossfadeChunk (acc.drop pos) sv ov ++ sv.drop ov)
        segLen rest

/-- buildOutputBufferFromSegments: empty list gives an empty buffer, a
single segment is sliced out verbatim, and longer lists are stitched
left to right with crossfades. -/
def buildOutputBufferFromSegments (src : List ℚ) (segments : List (ℕ × ℕ))
    (overlapSamples : ℕ) : List ℚ :=
  match segments with
  | [] => []
  | seg :: rest => stitchGo src overlapSamples (segSlice src seg) (seg.2 - seg.1) rest

/-! ## Pipeline entry point (processAudioBuffer) -/

/-- The caller-supplied options (already resolved against DEFAULTS). -/
structure WavOptions where
  silenceThreshold : ℚ
  minSilenceMs : ℚ
  overlapMs : ℚ

/-- The mono buffer the pipeline finally encodes: the downmixed input
when the early-return condition (segments.length <= 1 and segments[0]
spans the whole buffer) holds, otherwise the stitched rebuild. -/
def processedMono (b : JsAudioBuffer) (opts : WavOptions) : List ℚ :=
  let monoData := downmixToMono b
  let minSilenceSamples := msToSamples opts.minSilenceMs b.sampleRate
  let overlapSamples := msToSamples opts.overlapMs b.sampleRate
  let segments :=
    detectSpeechSegments monoData b.sampleRate opts.silenceThreshold minSilenceSamples
  if segments.length ≤ 1 ∧ segments.head? = some (0, monoData.length) then monoData
  else buildOutputBufferFromSegments monoData segments overlapSamples

/-- processAudioBuffer: downmix, detect, stitch (or early return), then
encode as a WAV byte buffer.  The function is total: no branch reports
an error. -/
def processAudioBuffer (b : JsAudioBuffer) (opts : WavOptions) : List ℕ :=
  audioBufferToWavBlob b.sampleRate (processedMono b opts)

/-! ## Spec-side definition for the sample conversion claim -/

/-- Written from the specification sentence for the encoder: the clamped
value s maps to round(s * 32767) when s is nonnegative and
round(s * 32768) when s is negative. -/
def pcmRoundSpec (x : ℚ) : ℤ :=
  if clamp1 x < 0 then round (clamp1 x * 32768) else round (clamp1 x * 32767)

/-! ## Basic facts about the sample conversion -/

theorem neg_one_le_clamp1 (x : ℚ) : -1 ≤ clamp1 x := le_max_left _ _

theorem clamp1_le_one (x : ℚ) : clamp1 x ≤ 1 :=
  max_le (by norm_num) (min_le_left _ _)

theorem truncQ_scaled_bounds (x : ℚ) :
    -32768 ≤ truncQ (if clamp1 x < 0 then clamp1 x * 32768 else clamp1 x * 32767) ∧
    truncQ (if clamp1 x < 0 then clamp1 x * 32768 else clamp1 x * 32767) ≤ 32767 := by
  have h1 := neg_one_le_clamp1 x
  have h2 := clamp1_le_one x
  by_cases hs : clamp1 x < 0
  · rw [if_pos hs]
    have hq0 : clamp1 x * 32768 < 0 := mul_neg_of_neg_of_pos hs (by norm_num)
    rw [truncQ, if_pos hq0]
    constructor
    · have hq1 : ((-32768 : ℤ) : ℚ) ≤ clamp1 x * 32768 := by push_cast; nlinarith
      calc (-32768 : ℤ) = ⌈((-32768 : ℤ) : ℚ)⌉ := (Int.ceil_intCast _).symm
        _ ≤ ⌈clamp1 x * 32768⌉ := Int.ceil_le_ceil hq1
    · have : ⌈clamp1 x * 32768⌉ ≤ 0 := Int.ceil_le.mpr (by push_cast; linarith)
      omega
  · rw [if_neg hs]
    push_neg at hs
    have hq0 : 0 ≤ clamp1 x * 32767 := mul_nonneg hs (by norm_num)
    rw [truncQ, if_neg (not_lt.mpr hq0)]
    constructor
    · have : (0 : ℤ) ≤ ⌊clamp1 x * 32767⌋ := Int.floor_nonneg.mpr hq0
      omega
    · have hq1 : clamp1 x * 32767 ≤ ((32767 : ℤ) : ℚ) := by push_cast; nlinarith
      calc ⌊clamp1 x * 32767⌋ ≤ ⌊((32767 : ℤ) : ℚ)⌋ := Int.floor_le_floor hq1
        _ = 32767 := Int.floor_intCast _

/-- C1 (amended).  In the PCM encoder, every sample is first clamped to
[-1, 1]; the clamped value s is then converted to a 16-bit signed
integer by truncating toward zero the product s * 32768 when s < 0 and
s * 32767 otherwise (not by rounding to nearest), and the stored value
always lies in [-32768, 32767]. -/
theorem pcm_conversion_truncates (x : ℚ) :
    (-1 ≤ clamp1 x ∧ clamp1 x ≤ 1) ∧
    floatTo16 x =
      truncQ (if clamp1 x < 0 then clamp1 x * 32768 else clamp1 x * 32767) ∧
    -32768 ≤ floatTo16 x ∧ floatTo16 x ≤ 32767 := by
  obtain ⟨hlo, hhi⟩ := truncQ_scaled_bounds x
  have hid : floatTo16 x =
      truncQ (if clamp1 x < 0 then clamp1 x * 32768 else clamp1 x * 32767) := by
    rw [floatTo16, toInt16]
    omega
  refine ⟨⟨neg_one_le_clamp1 x, clamp1_le_one x⟩, hid, ?_, ?_⟩
  · rw [hid]; exact hlo
  · rw [hid]; exact hhi

theorem clamp1_half : clamp1 (1 / 2) = 1 / 2 := by
  rw [clamp1, min_eq_right (by norm_num), max_eq_right (by norm_num)]

/-- C1 (counterexample).  The claim says the clamped sample 1/2 is stored
as round(0.5 * 32767) = 16384; the code stores the truncated value
16383 (DataView.setInt16 truncates toward zero). -/
theorem pcm_conversion_not_round :
    floatTo16 (1 / 2) = 16383 ∧ pcmRoundSpec (1 / 2) = 16384 ∧
    floatTo16 (1 / 2) ≠ pcmRoundSpec (1 / 2) := by
  have h1 : floatTo16 (1 / 2) = 16383 := by
    rw [floatTo16, clamp1_half, if_neg (by norm_num), truncQ, if_neg (by norm_num),
      toInt16]
    norm_num
  have h2 : pcmRoundSpec (1 / 2) = 16384 := by
    rw [pcmRoundSpec, clamp1_half, if_neg (by norm_num), round_eq]
    norm_num
  exact ⟨h1, h2, by rw [h1, h2]; decide⟩

/-! ## The container layout -/

theorem length_floatTo16BitPCMBytes (input : List ℚ) :
    (floatTo16BitPCMBytes input).length = input.length * 2 := by
  induction input with
  | nil => rfl
  | cons a l ih =>
      rw [floatTo16BitPCMBytes] at ih ⊢
      rw [List.map_cons, List.flatten_cons, List.length_append, ih, List.length_cons]
      have h2 : (i16le (floatTo16 a)).length = 2 := rfl
      rw [h2]
      ring

theorem length_wav (sampleRate : ℕ) (cd : List ℚ) :
    (audioBufferToWavBlob sampleRate cd).length = 44 + cd.length * 2 := by
  simp only [audioBufferToWavBlob, u16le, u32le, List.length_append, List.length_cons,
    List.length_nil, length_floatTo16BitPCMBytes]

set_option maxHeartbeats 1600000 in
/-- C8.  For every mono buffer and sample rate, the encoder output is
exactly the 44-byte little-endian header of section 6 followed by
dataSize = sampleCount * 2 bytes of 16-bit samples: "RIFF", 36 +
dataSize, "WAVE", the fmt chunk (size 16, format 1, 1 channel, the
sample rate, byte rate sampleRate * 2, block align 2, 16 bits per
sample), "data", dataSize, then the PCM payload. -/
theorem wav_header_layout (sampleRate : ℕ) (channelData : List ℚ) :
    (audioBufferToWavBlob sampleRate channelData).length =
      44 + channelData.length * 2 ∧
    (audioBufferToWavBlob sampleRate channelData).take 4 = [82, 73, 70, 70] ∧
    ((audioBufferToWavBlob sampleRate channelData).drop 4).take 4 =
      u32le (36 + channelData.length * 2) ∧
    ((audioBufferToWavBlob sampleRate channelData).drop 8).take 4 = [87, 65, 86, 69] ∧
    ((audioBufferToWavBlob sampleRate channelData).drop 12).take 4 = [102, 109, 116, 32] ∧
    ((audioBufferToWavBlob sampleRate channelData).drop 16).take 4 = u32le 16 ∧
    ((audioBufferToWavBlob sampleRate channelData).drop 20).take 2 = u16le 1 ∧
    ((audioBufferToWavBlob sampleRate channelData).drop 22).take 2 = u16le 1 ∧
    ((audioBufferToWavBlob sampleRate channelData).drop 24).take 4 = u32le sampleRate ∧
    ((audioBufferToWavBlob sampleRate channelData).drop 28).take 4 =
      u32le (sampleRate * 2) ∧
    ((audioBufferToWavBlob sampleRate channelData).drop 32).take 2 = u16le 2 ∧
    ((audioBufferToWavBlob sampleRate channelData).drop 34).take 2 = u16le 16 ∧
    ((audioBufferToWavBlob sampleRate channelData).drop 36).take 4 = [100, 97, 116, 97] ∧
    ((audioBufferToWavBlob sampleRate channelData).drop 40).take 4 =
      u32le (channelData.length * 2) ∧
    (audioBufferToWavBlob sampleRate channelData).drop 44 =
      floatTo16BitPCMBytes channelData ∧
    (floatTo16BitPCMBytes channelData).length = channelData.length * 2 := by
  have hlen := length_wav sampleRate channelData
  have h1 : (audioBufferToWavBlob sampleRate channelData).take 4 = [82, 73, 70, 70] := rfl
  have h2 : ((audioBufferToWavBlob sampleRate channelData).drop 4).take 4 =
      u32le (36 + channelData.length * 2) := rfl
  have h3 : ((audioBufferToWavBlob sampleRate channelData).drop 8).take 4 =
      [87, 65, 86, 69] := rfl
  have h4 : ((audioBufferToWavBlob sampleRate channelData).drop 12).take 4 =
      [102, 109, 116, 32] := rfl
  have h5 : ((audioBufferToWavBlob sampleRate channelData).drop 16).take 4 =
      u32le 16 := rfl
  have h6 : ((audioBufferToWavBlob sampleRate channelData).drop 20).take 2 =
      u16le 1 := rfl
  have h7 : ((audioBufferToWavBlob sampleRate channelData).drop 22).take 2 =
      u16le 1 := rfl
  have h8 : ((audioBufferToWavBlob sampleRate channelData).drop 24).take 4 =
      u32le sampleRate := rfl
  have h9 : ((audioBufferToWavBlob sampleRate channelData).drop 28).take 4 =
      u32le (sampleRate * 2) := rfl
  have h10 : ((audioBufferToWavBlob sampleRate channelData).drop 32).take 2 =
      u16le 2 := rfl
  have h11 : ((audioBufferToWavBlob sampleRate channelData).drop 34).take 2 =
      u16le 16 := rfl
  have h12 : ((audioBufferToWavBlob sampleRate channelData).drop 36).take 4 =
      [100, 97, 116, 97] := rfl
  have h13 : ((audioBufferToWavBlob sampleRate channelData).drop 40).take 4 =
      u32le (channelData.length * 2) := rfl
  have h14 : (audioBufferToWavBlob sampleRate channelData).drop 44 =
      floatTo16BitPCMBytes channelData := rfl
  exact ⟨hlen, h1, h2, h3, h4, h5, h6, h7, h8, h9, h10, h11, h12, h13, h14,
    length_floatTo16BitPCMBytes channelData⟩

/-! ## The pipeline entry point is total and performs no validation -/

/-- C2 (amended).  The pipeline entry point performs no input
validation: every input, including buffers with mismatched channel
lengths, non-finite or out-of-range data, a sample rate of zero, or
negative configuration values, is processed unconditionally, and the
result is always a complete encoded container (44-byte header plus
2 bytes per output sample); no InvalidBuffer or InvalidConfiguration
error is ever reported. -/
theorem pipeline_is_total (b : JsAudioBuffer) (opts : WavOptions) :
    processAudioBuffer b opts =
      audioBufferToWavBlob b.sampleRate (processedMono b opts) ∧
    (processAudioBuffer b opts).length = 44 + (processedMono b opts).length * 2 ∧
    (processAudioBuffer b opts).take 4 = [82, 73, 70, 70] ∧
    (processAudioBuffer b opts).drop 44 = floatTo16BitPCMBytes (processedMono b opts) :=
  ⟨rfl, length_wav b.sampleRate (processedMono b opts), rfl, rfl⟩

/-- C2 (counterexample).  The invalid input with sample rate 0 (a buffer
the claim says is rejected with an InvalidBuffer error at entry) is
processed normally: the pipeline returns a complete 46-byte container
rather than reporting an error. -/
theorem pipeline_accepts_invalid_input :
    processAudioBuffer ⟨[[0]], 0⟩ ⟨15 / 1000, 200, 60⟩ =
      audioBufferToWavBlob 0 [0] ∧
    (processAudioBuffer ⟨[[0]], 0⟩ ⟨15 / 1000, 200, 60⟩).length = 46 := by
  have hm : processedMono ⟨[[0]], 0⟩ ⟨15 / 1000, 200, 60⟩ = [0] := by
    norm_num [processedMono, downmixToMono, bufferLength, msToSamples,
      detectSpeechSegments, rawSegments, scanWithTail, codeScan, scanGo, scanStep,
      tailSegments, mergeSegments, mergeStep, mergeGapSamples]
  constructor
  · show audioBufferToWavBlob (0 : ℕ) (processedMono ⟨[[0]], 0⟩ ⟨15 / 1000, 200, 60⟩) =
      audioBufferToWavBlob 0 [0]
    rw [hm]
  · show (audioBufferToWavBlob (0 : ℕ)
      (processedMono ⟨[[0]], 0⟩ ⟨15 / 1000, 200, 60⟩)).length = 46
    rw [hm, length_wav]
    norm_num

/-- C4.  If the segmenter returns exactly one segment spanning the whole
mono buffer, the pipeline's final output mono buffer is the downmixed
input itself: the early return fires and no crossfade stitching runs. -/
theorem single_full_segment_is_identity (b : JsAudioBuffer) (opts : WavOptions)
    (h : detectSpeechSegments (downmixToMono b) b.sampleRate opts.silenceThreshold
          (msToSamples opts.minSilenceMs b.sampleRate) =
        [(0, (downmixToMono b).length)]) :
    processedMono b opts = downmixToMono b := by
  simp [processedMono, h]

/-- C4 (witness).  A one-sample loud buffer: the segmenter returns the
full-span segment [0, 1) and the pipeline output equals the downmixed
input. -/
theorem single_full_segment_is_identity_witness :
    detectSpeechSegments (downmixToMono ⟨[[1]], 8000⟩) 8000 (15 / 1000)
        (msToSamples 200 8000) = [(0, (downmixToMono ⟨[[1]], 8000⟩).length)] ∧
    processedMono ⟨[[1]], 8000⟩ ⟨15 / 1000, 200, 60⟩ = downmixToMono ⟨[[1]], 8000⟩ := by
  have hdet : detectSpeechSegments (downmixToMono ⟨[[1]], 8000⟩) 8000 (15 / 1000)
      (msToSamples 200 8000) = [(0, (downmixToMono ⟨[[1]], 8000⟩).length)] := by
    norm_num [detectSpeechSegments, rawSegments, scanWithTail, codeScan, scanGo,
      scanStep, tailSegments, mergeSegments, mergeStep, downmixToMono]
  exact ⟨hdet, single_full_segment_is_identity ⟨[[1]], 8000⟩ ⟨15 / 1000, 200, 60⟩ hdet⟩

/-! ## The merge pass, recursively (spec-side description) -/

/-- Written from the specification of the merge pass: walk the segment
list in order carrying the last accepted segment; a segment whose gap
to it is at most the merge gap extends its end, otherwise the carried
segment is emitted and the walk continues from the new one. -/
def mergeRec (gap : ℤ) : ℕ × ℕ → List (ℕ × ℕ) → List (ℕ × ℕ)
  | prev, [] => [prev]
  | prev, seg :: rest =>
      if (seg.1 : ℤ) - (prev.2 : ℤ) ≤ gap then mergeRec gap (prev.1, seg.2) rest
      else prev :: mergeRec gap seg rest

theorem foldl_mergeStep (gap : ℤ) (rest : List (ℕ × ℕ)) :
    ∀ (pre : List (ℕ × ℕ)) (prev : ℕ × ℕ),
      List.foldl (mergeStep gap) (pre ++ [prev]) rest = pre ++ mergeRec gap prev rest := by
  induction rest with
  | nil => intro pre prev; simp [mergeRec]
  | cons seg rest ih =>
      intro pre prev
      rw [List.foldl_cons]
      have hstep : mergeStep gap (pre ++ [prev]) seg =
          if (seg.1 : ℤ) - (prev.2 : ℤ) ≤ gap then pre ++ [(prev.1, seg.2)]
          else (pre ++ [prev]) ++ [seg] := by
        rw [mergeStep, List.getLast?_concat]
        simp [List.dropLast_concat]
      by_cases h : (seg.1 : ℤ) - (prev.2 : ℤ) ≤ gap
      · rw [hstep, if_pos h, ih pre (prev.1, seg.2), mergeRec, if_pos h]
      · rw [hstep, if_neg h, ih (pre ++ [prev]) seg, mergeRec, if_neg h]
        simp

theorem mergeSegments_cons (gap : ℤ) (s : ℕ × ℕ) (rest : List (ℕ × ℕ)) :
    mergeSegments gap (s :: rest) = mergeRec gap s rest := by
  rw [mergeSegments, List.foldl_cons]
  have h0 : mergeStep gap [] s = [] ++ [s] := rfl
  rw [h0, foldl_mergeStep gap rest [] s, List.nil_append]

theorem mergeRec_length (gap : ℤ) (rest : List (ℕ × ℕ)) :
    ∀ prev : ℕ × ℕ, (mergeRec gap prev rest).length ≤ rest.length + 1 := by
  induction rest with
  | nil => intro prev; simp [mergeRec]
  | cons seg rest ih =>
      intro prev
      rw [mergeRec]
      by_cases h : (seg.1 : ℤ) - (prev.2 : ℤ) ≤ gap
      · rw [if_pos h]
        calc (mergeRec gap (prev.1, seg.2) rest).length ≤ rest.length + 1 := ih _
          _ ≤ (seg :: rest).length + 1 := by simp
      · rw [if_neg h, List.length_cons]
        have := ih seg
        simp only [List.length_cons]
        omega

theorem mergeSegments_length (gap : ℤ) (l : List (ℕ × ℕ)) :
    (mergeSegments gap l).length ≤ l.length := by
  cases l with
  | nil => simp [mergeSegments]
  | cons s rest =>
      rw [mergeSegments_cons]
      have := mergeRec_length gap rest s
      simp only [List.length_cons]
      omega

/-- C7.  The merge pass always runs inside detectSpeechSegments with the
fixed constant mergeGapSamples = floor(sampleRate * 0.03), independent
of the caller's threshold and silence configuration; on every segment
list it behaves as the described walk (a segment whose gap to the last
accepted one is at most the merge gap extends that segment's end to its
own end, otherwise it is appended), and the result never has more
entries than its input. -/
theorem merge_pass_characterization :
    (∀ (data : List ℚ) (sampleRate : ℕ) (thr : ℚ) (minSil : ℕ),
      detectSpeechSegments data sampleRate thr minSil =
        mergeSegments (mergeGapSamples sampleRate) (rawSegments data thr minSil)) ∧
    (∀ (gap : ℤ) (s : ℕ × ℕ) (rest : List (ℕ × ℕ)),
      mergeSegments gap (s :: rest) = mergeRec gap s rest) ∧
    (∀ (gap : ℤ) (l : List (ℕ × ℕ)), (mergeSegments gap l).length ≤ l.length) :=
  ⟨fun _ _ _ _ => rfl, mergeSegments_cons, mergeSegments_length⟩

/-! ## Stitcher length conservation -/

/-- The segment lengths summed, as the stitcher's total loop computes
them. -/
def sumLens (segs : List (ℕ × ℕ)) : ℕ := (segs.map fun seg => seg.2 - seg.1).sum

/-- The per-boundary overlaps of adjacent pairs:
ov = min(overlapSamples, len(previous), len(current)), counted once per
boundary. -/
def sumOverlaps (ovS : ℕ) : List (ℕ × ℕ) → ℕ
  | a :: b :: rest => min ovS (min (a.2 - a.1) (b.2 - b.1)) + sumOverlaps ovS (b :: rest)
  | _ => 0

/-- The net growth of the filled output as the stitch loop consumes the
remaining segments, given the previous segment's length. -/
def tailTotal (ovS : ℕ) : ℕ → List (ℕ × ℕ) → ℕ
  | _, [] => 0
  | prevLen, seg :: rest =>
      let l := seg.2 - seg.1
      (l - min ovS (min prevLen l)) + tailTotal ovS l rest

theorem length_crossfadeChunk (tl hd : List ℚ) (ov : ℕ) :
    (crossfadeChunk tl hd ov).length = ov := by
  simp [crossfadeChunk]

theorem length_segSlice (src : List ℚ) (seg : ℕ × ℕ)
    (h2 : seg.2 ≤ src.length) :
    (segSlice src seg).length = seg.2 - seg.1 := by
  simp only [segSlice, List.length_take, List.length_drop]
  omega

theorem stitchGo_length (src : List ℚ) (ovS : ℕ) (rest : List (ℕ × ℕ)) :
    ∀ (acc : List ℚ) (prevLen : ℕ),
      (∀ seg ∈ rest, seg.2 ≤ src.length) →
      prevLen ≤ acc.length →
      (stitchGo src ovS acc prevLen rest).length = acc.length + tailTotal ovS prevLen rest := by
  induction rest with
  | nil => intro acc prevLen _ _; simp [stitchGo, tailTotal]
  | cons seg rest ih =>
      intro acc prevLen hvalid hle
      rw [stitchGo, tailTotal]
      have hsv : (segSlice src seg).length = seg.2 - seg.1 :=
        length_segSlice src seg (hvalid seg (List.mem_cons_self seg rest))
      have hov : min ovS (min prevLen (seg.2 - seg.1)) ≤ prevLen := by omega
      have hov2 : min ovS (min prevLen (seg.2 - seg.1)) ≤ seg.2 - seg.1 := by omega
      rw [ih _ _ (fun s hs => hvalid s (List.mem_cons_of_mem seg hs)) (by
        simp only [List.length_append, List.length_take, List.length_drop,
          length_crossfadeChunk, hsv]
        omega)]
      simp only [List.length_append, List.length_take, List.length_drop,
        length_crossfadeChunk, hsv]
      omega

theorem tailTotal_add_overlaps (ovS : ℕ) (rest : List (ℕ × ℕ)) :
    ∀ a : ℕ × ℕ,
      tailTotal ovS (a.2 - a.1) rest + sumOverlaps ovS (a :: rest) = sumLens rest := by
  induction rest with
  | nil => intro a; rfl
  | cons b rest ih =>
      intro a
      have h := ih b
      rw [tailTotal]
      have hlens : sumLens (b :: rest) = (b.2 - b.1) + sumLens rest := by
        simp [sumLens]
      rw [sumOverlaps, hlens]
      omega

theorem tailTotal_formula (ovS : ℕ) (rest : List (ℕ × ℕ)) :
    ∀ a : ℕ × ℕ,
      ((a.2 - a.1 : ℕ) : ℤ) + (tailTotal ovS (a.2 - a.1) rest : ℤ) =
        (sumLens (a :: rest) : ℤ) - (sumOverlaps ovS (a :: rest) : ℤ) := by
  intro a
  have h := tailTotal_add_overlaps ovS rest a
  have hlens : sumLens (a :: rest) = (a.2 - a.1) + sumLens rest := by
    simp [sumLens]
  omega

theorem build_length_cons (src : List ℚ) (s : ℕ × ℕ) (rest : List (ℕ × ℕ)) (ovS : ℕ)
    (hvalid : ∀ seg ∈ s :: rest, seg.2 ≤ src.length) :
    ((buildOutputBufferFromSegments src (s :: rest) ovS).length : ℤ) =
      (sumLens (s :: rest) : ℤ) - (sumOverlaps ovS (s :: rest) : ℤ) := by
  rw [buildOutputBufferFromSegments]
  have hsv : (segSlice src s).length = s.2 - s.1 :=
    length_segSlice src s (hvalid s (List.mem_cons_self s rest))
  rw [stitchGo_length src ovS rest _ _
    (fun g hg => hvalid g (List.mem_cons_of_mem s hg)) (le_of_eq hsv.symm)]
  rw [hsv]
  push_cast
  exact tailTotal_formula ovS rest s

/-- C5.  For every segment list with more than one entry whose segments
fit the source, the stitcher's output length equals the sum of segment
lengths minus one overlap ov = min(overlapSamples, len(previous),
len(current)) per adjacent boundary, and the write cursor after each
segment (the length of the stitched prefix) matches the same formula on
that prefix. -/
theorem stitch_length_conservation (src : List ℚ) (segments : List (ℕ × ℕ)) (ovS : ℕ)
    (hlen : 1 < segments.length)
    (hvalid : ∀ seg ∈ segments, seg.2 ≤ src.length) :
    ((buildOutputBufferFromSegments src segments ovS).length : ℤ) =
      (sumLens segments : ℤ) - (sumOverlaps ovS segments : ℤ) ∧
    ∀ k < segments.length,
      ((buildOutputBufferFromSegments src (segments.take (k + 1)) ovS).length : ℤ) =
        (sumLens (segments.take (k + 1)) : ℤ) -
          (sumOverlaps ovS (segments.take (k + 1)) : ℤ) := by
  match segments, hlen with
  | s :: rest, _ =>
    refine ⟨build_length_cons src s rest ovS hvalid, ?_⟩
    intro k _
    rw [List.take_succ_cons]
    exact build_length_cons src s (rest.take k) ovS
      (fun g hg => hvalid g (by
        rcases List.mem_cons.mp hg with h | h
        · exact h ▸ List.mem_cons_self s rest
        · exact List.mem_cons_of_mem s (List.take_subset k rest h)))

/-- C5 (witness).  Two two-sample segments with overlap 1: the stitched
length is 2 + 2 - 1 = 3, and the cursor positions match the formula on
each prefix. -/
theorem stitch_length_conservation_witness :
    (1 < ([((0 : ℕ), (2 : ℕ)), (2, 4)] : List (ℕ × ℕ)).length ∧
      ∀ seg ∈ ([((0 : ℕ), (2 : ℕ)), (2, 4)] : List (ℕ × ℕ)),
        seg.2 ≤ ([1, 1 / 2, 0, 1 / 2] : List ℚ).length) ∧
    ((buildOutputBufferFromSegments [1, 1 / 2, 0, 1 / 2] [(0, 2), (2, 4)] 1).length : ℤ) =
      (sumLens [(0, 2), (2, 4)] : ℤ) - (sumOverlaps 1 [(0, 2), (2, 4)] : ℤ) ∧
    ∀ k < ([((0 : ℕ), (2 : ℕ)), (2, 4)] : List (ℕ × ℕ)).length,
      ((buildOutputBufferFromSegments [1, 1 / 2, 0, 1 / 2]
          (([((0 : ℕ), (2 : ℕ)), (2, 4)] : List (ℕ × ℕ)).take (k + 1)) 1).length : ℤ) =
        (sumLens (([((0 : ℕ), (2 : ℕ)), (2, 4)] : List (ℕ × ℕ)).take (k + 1)) : ℤ) -
          (sumOverlaps 1 (([((0 : ℕ), (2 : ℕ)), (2, 4)] : List (ℕ × ℕ)).take (k + 1)) : ℤ) :=
  ⟨⟨by norm_num, by decide⟩,
    stitch_length_conservation [1, 1 / 2, 0, 1 / 2] [(0, 2), (2, 4)] 1
      (by norm_num) (by decide)⟩

/-! ## Stitcher amplitude bounds -/

theorem getD_bound (l : List ℚ) (i : ℕ)
    (hl : ∀ y ∈ l, -1 ≤ y ∧ y ≤ 1) : -1 ≤ l.getD i 0 ∧ l.getD i 0 ≤ 1 := by
  by_cases h : i < l.length
  · rw [List.getD_eq_getElem l 0 h]
    exact hl _ (List.getElem_mem h)
  · rw [List.getD_eq_default l 0 (by omega)]
    norm_num

theorem convex_blend_bound (a b t : ℚ) (ha : -1 ≤ a ∧ a ≤ 1) (hb : -1 ≤ b ∧ b ≤ 1)
    (ht : 0 ≤ t ∧ t ≤ 1) : -1 ≤ a * (1 - t) + b * t ∧ a * (1 - t) + b * t ≤ 1 := by
  obtain ⟨ha1, ha2⟩ := ha
  obtain ⟨hb1, hb2⟩ := hb
  obtain ⟨ht1, ht2⟩ := ht
  constructor
  · nlinarith [mul_nonneg (by linarith : (0 : ℚ) ≤ a + 1) (by linarith : (0 : ℚ) ≤ 1 - t),
      mul_nonneg (by linarith : (0 : ℚ) ≤ b + 1) ht1]
  · nlinarith [mul_nonneg (by linarith : (0 : ℚ) ≤ 1 - a) (by linarith : (0 : ℚ) ≤ 1 - t),
      mul_nonneg (by linarith : (0 : ℚ) ≤ 1 - b) ht1]

theorem mem_segSlice (src : List ℚ) (seg : ℕ × ℕ) {x : ℚ}
    (hx : x ∈ segSlice src seg) : x ∈ src :=
  List.drop_subset seg.1 src (List.take_subset _ _ hx)

theorem crossfadeChunk_bound (tl hd : List ℚ) (ov : ℕ)
    (htl : ∀ y ∈ tl, -1 ≤ y ∧ y ≤ 1) (hhd : ∀ y ∈ hd, -1 ≤ y ∧ y ≤ 1) :
    ∀ x ∈ crossfadeChunk tl hd ov, -1 ≤ x ∧ x ≤ 1 := by
  intro x hx
  rw [crossfadeChunk, List.mem_map] at hx
  obtain ⟨i, hi, rfl⟩ := hx
  rw [List.mem_range] at hi
  have hovpos : (0 : ℚ) < (ov : ℚ) := by exact_mod_cast Nat.pos_of_ne_zero (by omega)
  have ht : 0 ≤ (i : ℚ) / (ov : ℚ) ∧ (i : ℚ) / (ov : ℚ) ≤ 1 := by
    constructor
    · positivity
    · rw [div_le_one hovpos]
      exact_mod_cast le_of_lt hi
  exact convex_blend_bound _ _ _ (getD_bound tl i htl) (getD_bound hd i hhd) ht

theorem stitchGo_bounded (src : List ℚ) (ovS : ℕ)
    (hsrc : ∀ y ∈ src, -1 ≤ y ∧ y ≤ 1) (rest : List (ℕ × ℕ)) :
    ∀ (acc : List ℚ) (prevLen : ℕ), (∀ y ∈ acc, -1 ≤ y ∧ y ≤ 1) →
      ∀ x ∈ stitchGo src ovS acc prevLen rest, -1 ≤ x ∧ x ≤ 1 := by
  induction rest with
  | nil => intro acc prevLen hacc x hx; rw [stitchGo] at hx; exact hacc x hx
  | cons seg rest ih =>
      intro acc prevLen hacc x hx
      rw [stitchGo] at hx
      refine ih _ _ ?_ x hx
      intro y hy
      simp only [List.mem_append] at hy
      have hsv : ∀ y ∈ segSlice src seg, -1 ≤ y ∧ y ≤ 1 :=
        fun y hy => hsrc y (mem_segSlice src seg hy)
      rcases hy with (hy | hy) | hy
      · exact hacc y (List.take_subset _ _ hy)
      · exact crossfadeChunk_bound _ _ _
          (fun z hz => hacc z (List.drop_subset _ _ hz)) hsv y hy
      · exact hsv y (List.drop_subset _ _ hy)

/-- C10.  If every source sample lies in [-1, 1], every sample of the
stitcher's output lies in [-1, 1]: crossfaded samples are convex
combinations of two in-range values and all other output samples are
verbatim copies. -/
theorem stitch_output_in_range (src : List ℚ) (segments : List (ℕ × ℕ)) (ovS : ℕ)
    (hsrc : ∀ y ∈ src, -1 ≤ y ∧ y ≤ 1) :
    ∀ x ∈ buildOutputBufferFromSegments src segments ovS, -1 ≤ x ∧ x ≤ 1 := by
  match segments with
  | [] => intro x hx; rw [buildOutputBufferFromSegments] at hx; simp at hx
  | seg :: rest =>
      intro x hx
      rw [buildOutputBufferFromSegments] at hx
      exact stitchGo_bounded src ovS hsrc rest _ _
        (fun y hy => hsrc y (mem_segSlice src seg hy)) x hx

/-- C10 (witness).  A two-segment stitch of a buffer with samples 1 and
-1 stays inside [-1, 1]. -/
theorem stitch_output_in_range_witness :
    (∀ y ∈ ([1, -1] : List ℚ), -1 ≤ y ∧ y ≤ 1) ∧
    ∀ x ∈ buildOutputBufferFromSegments [1, -1] [(0, 1), (1, 2)] 1, -1 ≤ x ∧ x ≤ 1 :=
  ⟨by intro y hy; rcases List.mem_cons.mp hy with h | h
      · norm_num [h]
      · rw [List.mem_singleton.mp h]; norm_num,
    stitch_output_in_range [1, -1] [(0, 1), (1, 2)] 1
      (by intro y hy; rcases List.mem_cons.mp hy with h | h
          · norm_num [h]
          · rw [List.mem_singleton.mp h]; norm_num)⟩

/-! ## Chain invariants of the scanner and merger -/

/-- Well-formed, strictly advancing segments above a lower bound: every
start is at least the bound, every segment is non-degenerate, and the
rest lies above the segment's end. -/
def Chained : ℕ → List (ℕ × ℕ) → Prop
  | _, [] => True
  | lb, seg :: rest => lb ≤ seg.1 ∧ seg.1 < seg.2 ∧ Chained seg.2 rest

/-- The end of the last segment, 0 when the list is empty. -/
def lastEnd (l : List (ℕ × ℕ)) : ℕ := ((l.getLast?).map Prod.snd).getD 0

theorem lastEnd_concat (l : List (ℕ × ℕ)) (p : ℕ × ℕ) :
    lastEnd (l ++ [p]) = p.2 := by
  simp [lastEnd, List.getLast?_concat]

theorem lastEnd_cons_ne (p : ℕ × ℕ) (l : List (ℕ × ℕ)) (h : l ≠ []) :
    lastEnd (p :: l) = lastEnd l := by
  cases l with
  | nil => exact absurd rfl h
  | cons q l2 => simp [lastEnd, List.getLast?_cons_cons]

theorem chained_le_lastEnd (l : List (ℕ × ℕ)) :
    ∀ lb, Chained lb l → l ≠ [] → lb ≤ lastEnd l := by
  induction l with
  | nil => intro lb _ h; exact absurd rfl h
  | cons p l ih =>
      intro lb hc _
      obtain ⟨h1, h2, h3⟩ := hc
      cases l with
      | nil =>
          simp [lastEnd, List.getLast?_singleton]
          omega
      | cons q l2 =>
          rw [lastEnd_cons_ne p (q :: l2) (List.cons_ne_nil q l2)]
          have := ih p.2 h3 (List.cons_ne_nil q l2)
          omega

theorem chained_mem_lt (l : List (ℕ × ℕ)) :
    ∀ lb, Chained lb l → ∀ p ∈ l, p.1 < p.2 := by
  induction l with
  | nil => intro _ _ p hp; exact absurd hp (List.not_mem_nil p)
  | cons q l ih =>
      intro lb hc p hp
      obtain ⟨h1, h2, h3⟩ := hc
      rcases List.mem_cons.mp hp with h | h
      · rw [h]; exact h2
      · exact ih q.2 h3 p h

theorem chained_mem_le_lastEnd (l : List (ℕ × ℕ)) :
    ∀ lb, Chained lb l → ∀ p ∈ l, p.2 ≤ lastEnd l := by
  induction l with
  | nil => intro _ _ p hp; exact absurd hp (List.not_mem_nil p)
  | cons q l ih =>
      intro lb hc p hp
      obtain ⟨h1, h2, h3⟩ := hc
      cases l with
      | nil =>
          rcases List.mem_singleton.mp hp with rfl
          simp [lastEnd, List.getLast?_singleton]
      | cons r l2 =>
          rw [lastEnd_cons_ne q (r :: l2) (List.cons_ne_nil r l2)]
          rcases List.mem_cons.mp hp with h | h
          · rw [h]
            exact chained_le_lastEnd (r :: l2) q.2 h3 (List.cons_ne_nil r l2)
          · exact ih q.2 h3 p h

theorem chained_append_single (l : List (ℕ × ℕ)) :
    ∀ (lb s e : ℕ), Chained lb l → lastEnd l ≤ s → lb ≤ s → s < e →
      Chained lb (l ++ [(s, e)]) := by
  induction l with
  | nil => intro lb s e _ _ h3 h4; exact ⟨h3, h4, trivial⟩
  | cons p l ih =>
      intro lb s e hc hlast hlb hse
      obtain ⟨h1, h2, h3⟩ := hc
      refine ⟨h1, h2, ?_⟩
      cases l with
      | nil =>
          have hpe : lastEnd [p] = p.2 := by simp [lastEnd, List.getLast?_singleton]
          rw [hpe] at hlast
          exact ih p.2 s e trivial (by simp [lastEnd]) hlast hse
      | cons q l2 =>
          have hne : (q :: l2 : List (ℕ × ℕ)) ≠ [] := List.cons_ne_nil q l2
          rw [lastEnd_cons_ne p (q :: l2) hne] at hlast
          exact ih p.2 s e h3 hlast
            (le_trans (chained_le_lastEnd (q :: l2) p.2 h3 hne) hlast) hse

theorem chained_chain' (l : List (ℕ × ℕ)) :
    ∀ lb, Chained lb l → List.Chain' (fun a b : ℕ × ℕ => a.2 ≤ b.1) l := by
  induction l with
  | nil => intro _ _; exact List.chain'_nil
  | cons p l ih =>
      intro lb hc
      obtain ⟨h1, h2, h3⟩ := hc
      cases l with
      | nil => exact List.chain'_singleton p
      | cons q l2 =>
          rw [List.chain'_cons]
          exact ⟨h3.1, ih p.2 h3⟩

/-! ## The scan loop invariant -/

/-- The loop invariant of the detection scan after i samples: the
accumulated segments form a well-formed ascending chain ending at or
before i, and while speech is open the last closed end is at most
speechStart, itself at most i. -/
def ScanInv (i : ℕ) (st : ScanState) : Prop :=
  Chained 0 st.segments ∧ lastEnd st.segments ≤ i ∧
  (st.inSilence = false → lastEnd st.segments ≤ st.speechStart ∧ st.speechStart ≤ i)

theorem scanStep_inv (thr : ℚ) (minSil : ℕ) (i : ℕ) (st : ScanState) (a : ℚ)
    (inv : ScanInv i st) : ScanInv (i + 1) (scanStep thr minSil i st a) := by
  obtain ⟨hch, hle, hsp⟩ := inv
  simp only [scanStep]
  split_ifs with h1 h2 h3 h4
  · -- silent sample, silence long enough, positive segment pushed
    obtain ⟨hs1, hs2⟩ := hsp h2.1
    refine ⟨?_, ?_, ?_⟩
    · show Chained 0 (st.segments ++ [(st.speechStart, i - (st.silenceRun + 1))])
      exact chained_append_single st.segments 0 st.speechStart
        (i - (st.silenceRun + 1)) hch hs1 (Nat.zero_le _) h3
    · show lastEnd (st.segments ++ [(st.speechStart, i - (st.silenceRun + 1))]) ≤ i + 1
      rw [lastEnd_concat]
      omega
    · intro h
      exact Bool.noConfusion h
  · -- silent sample, silence long enough, degenerate segment dropped
    refine ⟨hch, ?_, ?_⟩
    · show lastEnd st.segments ≤ i + 1
      omega
    · intro h
      exact Bool.noConfusion h
  · -- silent sample, silence still short
    refine ⟨hch, ?_, ?_⟩
    · show lastEnd st.segments ≤ i + 1
      omega
    · intro h
      obtain ⟨hs1, hs2⟩ := hsp h
      refine ⟨hs1, ?_⟩
      show st.speechStart ≤ i + 1
      omega
  · -- loud sample ending a silence: speech restarts at i
    refine ⟨hch, ?_, ?_⟩
    · show lastEnd st.segments ≤ i + 1
      omega
    · intro _
      refine ⟨?_, ?_⟩
      · show lastEnd st.segments ≤ i
        exact hle
      · show i ≤ i + 1
        omega
  · -- loud sample during open speech
    have h4f : st.inSilence = false := by simpa using h4
    obtain ⟨hs1, hs2⟩ := hsp h4f
    refine ⟨hch, ?_, ?_⟩
    · show lastEnd st.segments ≤ i + 1
      omega
    · intro _
      refine ⟨hs1, ?_⟩
      show st.speechStart ≤ i + 1
      omega

theorem scanGo_inv (thr : ℚ) (minSil : ℕ) (l : List ℚ) :
    ∀ (i : ℕ) (st : ScanState), ScanInv i st →
      ScanInv (i + l.length) (scanGo thr minSil i st l) := by
  induction l with
  | nil => intro i st h; simpa [scanGo] using h
  | cons a rest ih =>
      intro i st h
      rw [scanGo]
      have h2 : i + (a :: rest).length = (i + 1) + rest.length := by
        simp [List.length_cons]; omega
      rw [h2]
      exact ih (i + 1) (scanStep thr minSil i st a) (scanStep_inv thr minSil i st a h)

theorem codeScan_inv (data : List ℚ) (thr : ℚ) (minSil : ℕ) :
    ScanInv data.length (codeScan data thr minSil) := by
  have h0 : ScanInv 0 ⟨[], false, 0, 0⟩ :=
    ⟨trivial, by simp [lastEnd], fun _ => ⟨by simp [lastEnd], le_refl 0⟩⟩
  have := scanGo_inv thr minSil data 0 ⟨[], false, 0, 0⟩ h0
  rw [codeScan]
  simpa using this

/-! ## Well-formedness of the raw and merged segment lists -/

theorem raw_ne_nil (data : List ℚ) (thr : ℚ) (minSil : ℕ) :
    rawSegments data thr minSil ≠ [] := by
  rw [rawSegments]
  split
  · exact List.cons_ne_nil _ _
  · assumption

theorem raw_chained (data : List ℚ) (thr : ℚ) (minSil : ℕ) (hd : data ≠ []) :
    Chained 0 (rawSegments data thr minSil) := by
  obtain ⟨hch, hle, hsp⟩ := codeScan_inv data thr minSil
  rw [rawSegments, scanWithTail, tailSegments]
  by_cases ht : (codeScan data thr minSil).inSilence = false ∧
      (codeScan data thr minSil).speechStart < data.length
  · rw [if_pos ht, if_neg (by simp)]
    exact chained_append_single _ 0 _ _ hch (hsp ht.1).1 (Nat.zero_le _) ht.2
  · rw [if_neg ht]
    split
    · exact ⟨Nat.zero_le 0, List.length_pos.mpr hd, trivial⟩
    · exact hch

theorem raw_lastEnd_le (data : List ℚ) (thr : ℚ) (minSil : ℕ) :
    lastEnd (rawSegments data thr minSil) ≤ data.length := by
  obtain ⟨hch, hle, hsp⟩ := codeScan_inv data thr minSil
  rw [rawSegments, scanWithTail, tailSegments]
  by_cases ht : (codeScan data thr minSil).inSilence = false ∧
      (codeScan data thr minSil).speechStart < data.length
  · rw [if_pos ht, if_neg (by simp)]
    rw [lastEnd_concat]
  · rw [if_neg ht]
    split
    · simp [lastEnd, List.getLast?_singleton]
    · exact hle

theorem mergeRec_ne_nil (gap : ℤ) (rest : List (ℕ × ℕ)) :
    ∀ prev, mergeRec gap prev rest ≠ [] := by
  induction rest with
  | nil => intro prev; exact List.cons_ne_nil _ _
  | cons seg rest ih =>
      intro prev
      rw [mergeRec]
      split
      · exact ih _
      · exact List.cons_ne_nil _ _

theorem mergeRec_chained (gap : ℤ) (rest : List (ℕ × ℕ)) :
    ∀ (prev : ℕ × ℕ) (lb : ℕ), Chained lb (prev :: rest) →
      Chained lb (mergeRec gap prev rest) := by
  induction rest with
  | nil => intro prev lb h; exact h
  | cons seg rest ih =>
      intro prev lb h
      obtain ⟨h1, h2, h3, h4, h5⟩ := h
      rw [mergeRec]
      split
      · exact ih (prev.1, seg.2) lb ⟨h1, by omega, h5⟩
      · exact ⟨h1, h2, ih seg prev.2 ⟨h3, h4, h5⟩⟩

theorem mergeRec_lastEnd (gap : ℤ) (rest : List (ℕ × ℕ)) :
    ∀ prev, lastEnd (mergeRec gap prev rest) = lastEnd (prev :: rest) := by
  induction rest with
  | nil => intro prev; rfl
  | cons seg rest ih =>
      intro prev
      rw [mergeRec]
      have hx : lastEnd (prev :: seg :: rest) = lastEnd (seg :: rest) :=
        lastEnd_cons_ne prev (seg :: rest) (List.cons_ne_nil seg rest)
      split
      · rw [ih (prev.1, seg.2), hx]
        cases rest with
        | nil => simp [lastEnd, List.getLast?_singleton]
        | cons r l2 =>
            rw [lastEnd_cons_ne (prev.1, seg.2) (r :: l2) (List.cons_ne_nil r l2),
              lastEnd_cons_ne seg (r :: l2) (List.cons_ne_nil r l2)]
      · rw [lastEnd_cons_ne prev (mergeRec gap seg rest) (mergeRec_ne_nil gap rest seg),
          ih seg, hx]

theorem detect_empty (sampleRate : ℕ) (thr : ℚ) (minSil : ℕ) :
    detectSpeechSegments [] sampleRate thr minSil = [(0, 0)] := rfl

/-- C9.  For every input buffer, threshold, and configuration, the
segment list produced by segmentation followed by merging is non-empty
and is ordered ascending and non-overlapping: each segment's end is at
most the next segment's start. -/
theorem segments_nonempty_ordered (data : List ℚ) (sampleRate : ℕ) (thr : ℚ)
    (minSil : ℕ) :
    detectSpeechSegments data sampleRate thr minSil ≠ [] ∧
    List.Chain' (fun a b : ℕ × ℕ => a.2 ≤ b.1)
      (detectSpeechSegments data sampleRate thr minSil) := by
  obtain ⟨s, rest, hraw⟩ := List.exists_cons_of_ne_nil (raw_ne_nil data thr minSil)
  have hdet : detectSpeechSegments data sampleRate thr minSil =
      mergeRec (mergeGapSamples sampleRate) s rest := by
    rw [detectSpeechSegments, hraw, mergeSegments_cons]
  constructor
  · rw [hdet]; exact mergeRec_ne_nil _ rest s
  · by_cases hd : data = []
    · subst hd
      rw [detect_empty]
      exact List.chain'_singleton (0, 0)
    · have hch : Chained 0 (rawSegments data thr minSil) := raw_chained data thr minSil hd
      rw [hraw] at hch
      rw [hdet]
      exact chained_chain' _ 0 (mergeRec_chained _ rest s 0 hch)

/-- C3 (amended).  Every segment of the raw (segmentation) and merged
lists satisfies 0 ≤ start ≤ end ≤ N, and start < end whenever the
buffer is non-empty; for the empty buffer the fallback yields the
single zero-length segment [0, 0). -/
theorem segment_bounds (data : List ℚ) (sampleRate : ℕ) (thr : ℚ) (minSil : ℕ)
    (seg : ℕ × ℕ)
    (hmem : seg ∈ rawSegments data thr minSil ∨
      seg ∈ detectSpeechSegments data sampleRate thr minSil) :
    seg.1 ≤ seg.2 ∧ seg.2 ≤ data.length ∧ (data ≠ [] → seg.1 < seg.2) := by
  by_cases hd : data = []
  · subst hd
    have hr : rawSegments ([] : List ℚ) thr minSil = [(0, 0)] := rfl
    have hq : seg = (0, 0) := by
      rcases hmem with h | h
      · rw [hr] at h; exact List.mem_singleton.mp h
      · rw [detect_empty] at h; exact List.mem_singleton.mp h
    rw [hq]
    exact ⟨le_refl 0, Nat.zero_le _, fun h => absurd rfl h⟩
  · have hch : Chained 0 (rawSegments data thr minSil) := raw_chained data thr minSil hd
    have hle : lastEnd (rawSegments data thr minSil) ≤ data.length :=
      raw_lastEnd_le data thr minSil
    obtain ⟨s, rest, hraw⟩ := List.exists_cons_of_ne_nil (raw_ne_nil data thr minSil)
    rcases hmem with h | h
    · have h1 := chained_mem_lt _ 0 hch seg h
      have h2 := chained_mem_le_lastEnd _ 0 hch seg h
      exact ⟨le_of_lt h1, le_trans h2 hle, fun _ => h1⟩
    · rw [hraw] at hch
      have hdet : detectSpeechSegments data sampleRate thr minSil =
          mergeRec (mergeGapSamples sampleRate) s rest := by
        rw [detectSpeechSegments, hraw, mergeSegments_cons]
      rw [hdet] at h
      have hmch := mergeRec_chained (mergeGapSamples sampleRate) rest s 0 hch
      have h1 := chained_mem_lt _ 0 hmch seg h
      have h2 := chained_mem_le_lastEnd _ 0 hmch seg h
      have h3 : lastEnd (mergeRec (mergeGapSamples sampleRate) s rest) ≤ data.length := by
        rw [mergeRec_lastEnd, ← hraw]
        exact hle
      exact ⟨le_of_lt h1, le_trans h2 h3, fun _ => h1⟩

/-- C3 (counterexample).  On the empty buffer the claim fails: the
fallback produces the zero-length segment [0, 0), so a segment with
start < end false appears in the merged list. -/
theorem zero_length_segment_on_empty_buffer :
    (0, 0) ∈ detectSpeechSegments [] 16000 (15 / 1000) 3200 ∧ ¬ ((0 : ℕ) < 0) := by
  constructor
  · rw [detect_empty]
    exact List.mem_singleton.mpr rfl
  · omega

/-- C3 (witness).  On a one-sample loud buffer the merged list is
[(0, 1)] and the bounds hold with start < end. -/
theorem segment_bounds_witness :
    ((0, 1) ∈ rawSegments [1] (15 / 1000) 2 ∨
      (0, 1) ∈ detectSpeechSegments [1] 16000 (15 / 1000) 2) ∧
    ((0 : ℕ), (1 : ℕ)).1 ≤ ((0 : ℕ), (1 : ℕ)).2 ∧
    ((0 : ℕ), (1 : ℕ)).2 ≤ ([1] : List ℚ).length ∧
    (([1] : List ℚ) ≠ [] → ((0 : ℕ), (1 : ℕ)).1 < ((0 : ℕ), (1 : ℕ)).2) := by
  have hr : rawSegments [1] (15 / 1000) 2 = [(0, 1)] := by
    norm_num [rawSegments, scanWithTail, codeScan, scanGo, scanStep, tailSegments]
  have hmem : (0, 1) ∈ rawSegments [1] (15 / 1000) 2 ∨
      (0, 1) ∈ detectSpeechSegments [1] 16000 (15 / 1000) 2 := by
    left
    rw [hr]
    exact List.mem_singleton.mpr rfl
  exact ⟨hmem, segment_bounds [1] 16000 (15 / 1000) 2 (0, 1) hmem⟩

/-! ## The scan, as the specification describes it -/

/-- Written from the specification's description of the scan (explicit
state passing, integer arithmetic): at each silent sample the counter
is incremented, and when it first reaches minSilenceSamples outside
silence the segment [speechStart, i - silenceRun) is emitted exactly
when its integer length is positive; a loud sample restarts speech at
its own index.  The tail rule carries the amendment: the final segment
[speechStart, N) is closed only when additionally speechStart < N. -/
def specScanGo (thr : ℚ) (minSil : ℕ) (n : ℕ) :
    ℕ → Bool → ℕ → ℕ → List ℚ → List (ℕ × ℕ)
  | _, inSil, _, start, [] =>
      if inSil = false ∧ start < n then [(start, n)] else []
  | i, inSil, run, start, a :: rest =>
      if |a| < thr then
        if inSil = false ∧ minSil ≤ run + 1 then
          (if (start : ℤ) < (i : ℤ) - ((run : ℤ) + 1) then
            [(start, ((i : ℤ) - ((run : ℤ) + 1)).toNat)] else []) ++
            specScanGo thr minSil n (i + 1) true (run + 1) start rest
        else specScanGo thr minSil n (i + 1) inSil (run + 1) start rest
      else specScanGo thr minSil n (i + 1) false 0 (if inSil then i else start) rest

/-- The specification scan over a whole buffer. -/
def specRawScan (data : List ℚ) (thr : ℚ) (minSil : ℕ) : List (ℕ × ℕ) :=
  specScanGo thr minSil data.length 0 false 0 0 data

theorem scanGo_spec (thr : ℚ) (minSil : ℕ) (n : ℕ) (l : List ℚ) :
    ∀ (i : ℕ) (st : ScanState),
      tailSegments n (scanGo thr minSil i st l) =
        st.segments ++
          specScanGo thr minSil n i st.inSilence st.silenceRun st.speechStart l := by
  induction l with
  | nil =>
      intro i st
      rw [scanGo, specScanGo, tailSegments]
      by_cases h : st.inSilence = false ∧ st.speechStart < n
      · rw [if_pos h, if_pos h]
      · rw [if_neg h, if_neg h, List.append_nil]
  | cons a rest ih =>
      intro i st
      rw [scanGo, ih (i + 1) (scanStep thr minSil i st a)]
      conv_rhs => rw [specScanGo]
      by_cases h1 : |a| < thr
      · rw [if_pos h1]
        by_cases h2 : st.inSilence = false ∧ minSil ≤ st.silenceRun + 1
        · rw [if_pos h2]
          by_cases h3 : st.speechStart < i - (st.silenceRun + 1)
          · have h3z : (st.speechStart : ℤ) < (i : ℤ) - ((st.silenceRun : ℤ) + 1) := by
              omega
            have hval : ((i : ℤ) - ((st.silenceRun : ℤ) + 1)).toNat =
                i - (st.silenceRun + 1) := by omega
            have hstep : scanStep thr minSil i st a =
                ⟨st.segments ++ [(st.speechStart, i - (st.silenceRun + 1))], true,
                  st.silenceRun + 1, st.speechStart⟩ := by
              simp only [scanStep]
              rw [if_pos h1, if_pos h2, if_pos h3]
            rw [hstep, if_pos h3z, hval]
            simp [List.append_assoc]
          · have h3z : ¬ (st.speechStart : ℤ) < (i : ℤ) - ((st.silenceRun : ℤ) + 1) := by
              omega
            have hstep : scanStep thr minSil i st a =
                ⟨st.segments, true, st.silenceRun + 1, st.speechStart⟩ := by
              simp only [scanStep]
              rw [if_pos h1, if_pos h2, if_neg h3]
            rw [hstep, if_neg h3z]
            simp
        · rw [if_neg h2]
          have hstep : scanStep thr minSil i st a =
              ⟨st.segments, st.inSilence, st.silenceRun + 1, st.speechStart⟩ := by
            simp only [scanStep]
            rw [if_pos h1, if_neg h2]
          rw [hstep]
      · rw [if_neg h1]
        have hstep : scanStep thr minSil i st a =
            ⟨st.segments, false, 0, if st.inSilence then i else st.speechStart⟩ := by
          simp only [scanStep]
          rw [if_neg h1]
        rw [hstep]

/-- C6 (amended).  The raw scan behaves exactly as the specification's
state machine describes: silent samples (strictly below the threshold)
increment the counter; when it first reaches minSilenceSamples outside
silence, the segment [speechStart, i - silenceRun) is closed if and
only if its length is positive; and when the scan ends while not in
silence and speechStart < N (the buffer is non-empty), the final
segment [speechStart, N) is closed. -/
theorem scan_matches_spec (data : List ℚ) (thr : ℚ) (minSil : ℕ) :
    scanWithTail data thr minSil = specRawScan data thr minSil := by
  rw [scanWithTail, codeScan, specRawScan]
  have h := scanGo_spec thr minSil data.length data 0 ⟨[], false, 0, 0⟩
  simpa using h

/-- C6 (counterexample).  On the empty buffer the scan ends with
inSilence = false, yet the code closes no final segment: the raw scan
output is empty and in particular does not contain [speechStart, N) =
[0, 0). -/
theorem tail_rule_guarded_on_empty_buffer :
    (codeScan [] (15 / 1000) 3200).inSilence = false ∧
    scanWithTail [] (15 / 1000) 3200 = [] ∧
    ¬ ((0, 0) ∈ scanWithTail [] (15 / 1000) 3200) := by
  refine ⟨rfl, rfl, ?_⟩
  rw [show scanWithTail [] (15 / 1000) 3200 = [] from rfl]
  exact List.not_mem_nil (0, 0)

end AudioProc
